import Mathlib

/-!
Verification of the Matrix space "via" updater (`src/main.py`).

The development shallowly embeds the script's pure core and its per-room
pipeline `update_via`.  Network calls (`space_get_hierarchy`,
`joined_members`, `room_get_state_event`, `room_put_state`) and
`random.shuffle` are modelled as oracle functions supplied to the pipeline;
Python exceptions are modelled with `Except`.
-/

/-- Python's `str.split(":")` on a list of characters: splits at every
colon, keeping empty segments, so `splitColon "".toList = [[]]`. -/
def splitColon : List Char → List (List Char)
  | [] => [[]]
  | c :: rest =>
    if c = ':' then [] :: splitColon rest
    else
      match splitColon rest with
      | [] => [[c]]
      | s :: ss => (c :: s) :: ss

/-- `get_user_homeserver` (src/main.py:148): `user_id.split(":")[1]`.
`none` models the `IndexError` raised when index 1 does not exist. -/
def get_user_homeserver (user_id : String) : Option String :=
  ((splitColon user_id.toList).map (fun cs => String.mk cs)).get? 1

/-- Python's list comprehension `[f(x) for x in xs]` where `f` may raise:
`none` models the whole comprehension raising. -/
def mapOpt (f : String → Option String) : List String → Option (List String)
  | [] => some []
  | x :: xs =>
    match f x, mapOpt f xs with
    | some y, some ys => some (y :: ys)
    | _, _ => none

/-- Accumulator loop for `pyUniq`: append each element not seen yet. -/
def pyUniqAux (acc : List String) : List String → List String
  | [] => acc
  | x :: xs => pyUniqAux (if acc.contains x then acc else acc ++ [x]) xs

/-- The keys of `Counter(lst)` in insertion order: first occurrences,
in order of first appearance (CPython dicts preserve insertion order). -/
def pyUniq (l : List String) : List String := pyUniqAux [] l

/-- `Counter(lst).items()`: each distinct element paired with its
multiplicity, in first-occurrence order. -/
def counterItems (lst : List String) : List (String × Nat) :=
  (pyUniq lst).map (fun s => (s, lst.count s))

/-- Stable insertion of a pair into a list sorted descending by count:
an equal count places the inserted pair first, matching the stability of
Python's `sorted(..., reverse=True)` when applied right-to-left. -/
def insertDesc (p : String × Nat) : List (String × Nat) → List (String × Nat)
  | [] => [p]
  | q :: rest => if q.2 ≤ p.2 then p :: q :: rest else q :: insertDesc p rest

/-- `sorted(items, key=lambda x: x[1], reverse=True)`: a stable sort,
descending by count. -/
def sortedDescByCount : List (String × Nat) → List (String × Nat)
  | [] => []
  | p :: rest => insertDesc p (sortedDescByCount rest)

/-- `most_common_servers` (src/main.py:152-159): count occurrences, keep
items occurring at least `min_occurrences` times, sort by count
descending, return the first `n` items. -/
def most_common_servers (lst : List String) (n : Nat) (min_occurrences : Nat := 2) :
    List String :=
  let counter := counterItems lst
  let filtered_items := counter.filter (fun p => min_occurrences ≤ p.2)
  let sorted_items := sortedDescByCount filtered_items
  let top_n_items := (sorted_items.take n).map Prod.fst
  top_n_items

/-- `get_highest_level_members` (src/main.py:135-145): the maximum power
level present; empty result when it is at most `threshold`, otherwise every
member holding exactly that maximum.  `none` models the `ValueError` that
Python's `max` raises on an empty mapping. -/
def get_highest_level_members (member_levels : List (String × Int))
    (threshold : Int := 50) : Option (List String) :=
  match member_levels with
  | [] => none
  | p :: rest =>
    let highest_value := (rest.map Prod.snd).foldl max p.2
    if highest_value ≤ threshold then some []
    else
      some ((member_levels.filter (fun q => q.2 = highest_value)).map Prod.fst)

/-- The `[main]` table of `config.toml` as read by `update_via`
(src/main.py:24, 50, 60, 84, 92-96, 110, 115, 125). -/
structure Config where
  space_id : String
  most_common_servers : Nat
  min_users_per_server : Nat
  additional_servers : List String
  optimal_via_servers : Nat
  ignore_requirementrs_to_reach_optimum : Bool
  ignore_errors : Bool
  shuffle_order : Bool
  dry_run : Bool
  deriving Repr

/-- The content of the `m.room.power_levels` state event as consumed at
src/main.py:70-75: the `users` map and `users_default`, each possibly
absent (Python `dict.get` with defaults `{}` and `0`). -/
structure PLContent where
  users : Option (List (String × Int))
  users_default : Option Int
  deriving Repr

/-- `power_levels.get("users", {}).get(user_id, power_levels.get("users_default", 0))`
(src/main.py:71-73). -/
def effectiveLevel (pl : PLContent) (user_id : String) : Int :=
  (((pl.users.getD []).lookup user_id)).getD (pl.users_default.getD 0)

/-- The `member_levels` dict comprehension (src/main.py:70-75). -/
def memberLevels (members : List String) (pl : PLContent) : List (String × Int) :=
  members.map (fun m => (m, effectiveLevel pl m))

/-- One entry of the root space's `children_state` (src/main.py:38-45,
106, 113): event type, state key (`none` models an absent key, whose
access would raise `KeyError`), and the current content. -/
structure ChildEntry where
  type_ : String
  state_key : Option String
  suggested : Bool
  via : List String
  deriving Repr, DecidableEq

/-- A room of the space hierarchy response; only `children_state` of the
root entry is consumed (src/main.py:35-38). -/
structure SpaceRoom where
  children_state : List ChildEntry
  deriving Repr

/-- Result of `client.joined_members` (src/main.py:48-55): either a
`JoinedMembersResponse` carrying the member user ids, or an error. -/
inductive MembersResp where
  | ok (members : List String)
  | err (msg : String)
  deriving Repr

/-- Result of `client.room_get_state_event` for `m.room.power_levels`
(src/main.py:64-67): success carries the event content; `err` is an
error response, which has no `content` attribute. -/
inductive PLResp where
  | ok (content : PLContent)
  | err (msg : String)
  deriving Repr

/-- Result of `client.room_put_state` (src/main.py:116-128). -/
inductive PutResp where
  | ok
  | err (msg : String)
  deriving Repr

/-- Result of `client.space_get_hierarchy` (src/main.py:29-32). -/
inductive HierResp where
  | ok (rooms : List SpaceRoom)
  | err (msg : String)
  deriving Repr

/-- The external collaborators of one run: the protocol client's per-room
responses and the permutation `random.shuffle` would apply. -/
structure Oracles where
  members : String → MembersResp
  powerLevels : String → PLResp
  put : String → PutResp
  shuffle : List String → List String

/-- Python exceptions that escape a room's iteration and abort the run. -/
inductive Fatal where
  | stateKeyMissing
  | memberFetch (msg : String)
  | plContentAttr (msg : String)
  | hsIndex
  | maxEmpty
  | update (msg : String)
  deriving Repr, DecidableEq

/-- The reported, non-aborting outcome of one child entry's iteration. -/
inductive RoomOutcome where
  | notChild
  | emptyStateKey
  | memberSkip (msg : String)
  | alreadyMatches
  | dryRun (servers : List String)
  | updated (servers : List String)
  | updateSkip (servers : List String) (msg : String)
  deriving Repr, DecidableEq

/-- Errors that abort the whole run. -/
inductive RunError where
  | hierarchy (msg : String)
  | noRooms
  | fatal (f : Fatal)
  deriving Repr, DecidableEq

deriving instance DecidableEq for Except

/-- `highest_level_servers` from `member_levels` (src/main.py:76-81):
the highest-level members mapped through `get_user_homeserver`. -/
def authorityServers (member_levels : List (String × Int)) :
    Except Fatal (List String) :=
  match get_highest_level_members member_levels with
  | none => .error .maxEmpty
  | some hl_members =>
    match mapOpt get_user_homeserver hl_members with
    | none => .error .hsIndex
    | some hl_servers => .ok hl_servers

/-- `list(set(xs))` — Python set iteration order is unspecified; the
embedding deduplicates, and every property proved about the result is
order-insensitive. -/
def pySet (xs : List String) : List String := xs.dedup

/-- src/main.py:76-103: power levels through the final `servers` list:
authority servers, allow-list filtering, union, and the relaxed
frequency re-run when the result falls short of the optimum. -/
def finishServers (cfg : Config) (members all_servers common_servers : List String)
    (pl : PLContent) : Except Fatal (List String) :=
  match authorityServers (memberLevels members pl) with
  | .error f => .error f
  | .ok highest_level_servers =>
    let valid_additional_servers :=
      cfg.additional_servers.filter (fun server => all_servers.contains server)
    let servers :=
      pySet (valid_additional_servers ++ common_servers ++ highest_level_servers)
    if servers.length < cfg.optimal_via_servers ∧
        cfg.ignore_requirementrs_to_reach_optimum = true then
      let server_count := max cfg.most_common_servers cfg.optimal_via_servers
      let common2 := most_common_servers all_servers server_count 1
      .ok (pySet (common2 ++ servers))
    else
      .ok servers

/-- src/main.py:57-103 given the fetched member list: extract all member
homeservers, run the frequency selector, fetch power levels (an error
response has no `content`, so a failed fetch raises unconditionally),
then `finishServers`. -/
def roomSelection (cfg : Config) (powerLevels : String → PLResp)
    (room_id : String) (members : List String) : Except Fatal (List String) :=
  match mapOpt get_user_homeserver members with
  | none => .error .hsIndex
  | some all_servers =>
    let common_servers :=
      most_common_servers all_servers cfg.most_common_servers cfg.min_users_per_server
    match powerLevels room_id with
    | .err m => .error (.plContentAttr m)
    | .ok pl => finishServers cfg members all_servers common_servers pl

/-- src/main.py:105-132: compare the computed list with the published
`via` as sets; on a difference, optionally shuffle, then either dry-run
report or issue the state update with its ignore-errors branching. -/
def applyPhase (cfg : Config) (o : Oracles) (e : ChildEntry) (room_id : String)
    (servers : List String) : Except Fatal RoomOutcome :=
  if e.via.toFinset = servers.toFinset then .ok .alreadyMatches
  else
    let servers := if cfg.shuffle_order then o.shuffle servers else servers
    if cfg.dry_run then .ok (.dryRun servers)
    else
      match o.put room_id with
      | .ok => .ok (.updated servers)
      | .err m =>
        if cfg.ignore_errors then .ok (.updateSkip servers m)
        else .error (.update m)

/-- One iteration of the `for room in space["children_state"]` loop
(src/main.py:38-132). -/
def processRoom (cfg : Config) (o : Oracles) (e : ChildEntry) :
    Except Fatal RoomOutcome :=
  if e.type_ ≠ "m.space.child" then .ok .notChild
  else
    match e.state_key with
    | none => .error .stateKeyMissing
    | some room_id =>
      if room_id = "" then .ok .emptyStateKey
      else
        match o.members room_id with
        | .err m =>
          if cfg.ignore_errors then .ok (.memberSkip m)
          else .error (.memberFetch m)
        | .ok members =>
          match roomSelection cfg o.powerLevels room_id members with
          | .error f => .error f
          | .ok servers => applyPhase cfg o e room_id servers

/-- The children loop: sequential, aborting at the first escaping
exception, one outcome per processed entry. -/
def processRooms (cfg : Config) (o : Oracles) :
    List ChildEntry → Except RunError (List RoomOutcome)
  | [] => .ok []
  | e :: rest =>
    match processRoom cfg o e with
    | .error f => .error (.fatal f)
    | .ok out =>
      match processRooms cfg o rest with
      | .error er => .error er
      | .ok outs => .ok (out :: outs)

/-- `update_via` (src/main.py:23-132) given the hierarchy response: a
failed fetch raises `ErrorGettingSpace`; otherwise the first room of the
response is the root space whose children are processed in order. -/
def update_via (cfg : Config) (o : Oracles) (h : HierResp) :
    Except RunError (List RoomOutcome) :=
  match h with
  | .err m => .error (.hierarchy m)
  | .ok [] => .error .noRooms
  | .ok (space :: _) => processRooms cfg o space.children_state

/-- The child entry as it stands after a run: an `updated` outcome
replaces the published via list with the list that was written, every
other outcome leaves the entry untouched (the applier writes
`{suggested, via}` with the same `suggested`). -/
def applyOutcome (e : ChildEntry) (out : RoomOutcome) : ChildEntry :=
  match out with
  | .updated s => { e with via := s }
  | _ => e

/-- The space's children as published after a run with the given
per-entry outcomes. -/
def applyRun (es : List ChildEntry) (outs : List RoomOutcome) : List ChildEntry :=
  List.zipWith applyOutcome es outs

/-- The outcome a second, unchanged run reports for a room, given the
first run's outcome: an applied update now already matches. -/
def secondRunOutcome : RoomOutcome → RoomOutcome
  | .updated _ => .alreadyMatches
  | x => x

/-- Outcomes of an error-free live run: no room was skipped because of
an ignored failure and nothing was dry-run. -/
def cleanOutcome (out : RoomOutcome) : Prop :=
  out = .notChild ∨ out = .emptyStateKey ∨ out = .alreadyMatches ∨
    ∃ s, out = .updated s

/-- Concrete configuration used by witnesses: relaxation and
ignore-errors enabled, live (non-dry-run) mode. -/
def wCfg : Config where
  space_id := "!space:S"
  most_common_servers := 5
  min_users_per_server := 2
  additional_servers := ["Z"]
  optimal_via_servers := 3
  ignore_requirementrs_to_reach_optimum := true
  ignore_errors := true
  shuffle_order := false
  dry_run := false

/-- Concrete oracles used by witnesses: every room has two members on
server `X`, default power levels, successful writes, reversing shuffle. -/
def wOracles : Oracles where
  members := fun _ => .ok ["@a:X", "@b:X"]
  powerLevels := fun _ => .ok ⟨none, none⟩
  put := fun _ => .ok
  shuffle := fun l => l.reverse

/-- A child entry whose published via list already matches the set the
pipeline computes under `wCfg`/`wOracles`. -/
def wEntry : ChildEntry := ⟨"m.space.child", some "!r1:X", false, ["X"]⟩

/-- A child entry whose published via list differs from the computed
set under `wCfg`/`wOracles`. -/
def wEntryDiff : ChildEntry := ⟨"m.space.child", some "!r2:X", false, ["Y"]⟩

/-- A child entry whose type is not "m.space.child". -/
def wEntryOther : ChildEntry := ⟨"m.room.message", some "!r3:X", false, []⟩

/-- A child entry with an empty state key. -/
def wEntryEmpty : ChildEntry := ⟨"m.space.child", some "", false, []⟩

/-! ### Lemmas about the pure helpers -/

theorem pyUniqAux_subset (l : List String) :
    ∀ (acc : List String) (x : String), x ∈ pyUniqAux acc l → x ∈ acc ∨ x ∈ l := by
  induction l with
  | nil => intro acc x hx; exact Or.inl hx
  | cons y ys ih =>
    intro acc x hx
    simp only [pyUniqAux] at hx
    rcases ih _ x hx with h | h
    · split at h
      · exact Or.inl h
      · rcases List.mem_append.mp h with h' | h'
        · exact Or.inl h'
        · simp only [List.mem_singleton] at h'
          exact Or.inr (h' ▸ List.mem_cons_self y ys)
    · exact Or.inr (List.mem_cons_of_mem _ h)

theorem pyUniq_subset {l : List String} {x : String} (hx : x ∈ pyUniq l) : x ∈ l := by
  rcases pyUniqAux_subset l [] x hx with h | h
  · simp at h
  · exact h

theorem counterItems_count {lst : List String} {p : String × Nat}
    (hp : p ∈ counterItems lst) : p.2 = lst.count p.1 := by
  simp only [counterItems, List.mem_map] at hp
  obtain ⟨s, -, rfl⟩ := hp
  rfl

theorem counterItems_fst_mem {lst : List String} {p : String × Nat}
    (hp : p ∈ counterItems lst) : p.1 ∈ lst := by
  simp only [counterItems, List.mem_map] at hp
  obtain ⟨s, hs, rfl⟩ := hp
  exact pyUniq_subset hs

theorem mem_insertDesc {q p : String × Nat} :
    ∀ {l : List (String × Nat)}, q ∈ insertDesc p l ↔ q = p ∨ q ∈ l := by
  intro l
  induction l with
  | nil => simp [insertDesc]
  | cons r rs ih =>
    simp only [insertDesc]
    split
    · simp [List.mem_cons]
    · simp only [List.mem_cons, ih]
      tauto

theorem mem_sortedDescByCount {q : String × Nat} :
    ∀ {l : List (String × Nat)}, q ∈ sortedDescByCount l ↔ q ∈ l := by
  intro l
  induction l with
  | nil => simp [sortedDescByCount]
  | cons p ps ih =>
    simp only [sortedDescByCount, mem_insertDesc, ih, List.mem_cons]

theorem most_common_servers_length (lst : List String) (n m : Nat) :
    (most_common_servers lst n m).length ≤ n := by
  simp only [most_common_servers, List.length_map, List.length_take]
  exact min_le_left _ _

theorem most_common_servers_count {lst : List String} {n m : Nat} {s : String}
    (hs : s ∈ most_common_servers lst n m) : m ≤ lst.count s := by
  simp only [most_common_servers, List.mem_map] at hs
  obtain ⟨p, hp, rfl⟩ := hs
  have hp' : p ∈ sortedDescByCount ((counterItems lst).filter (fun p => m ≤ p.2)) :=
    List.mem_of_mem_take hp
  rw [mem_sortedDescByCount, List.mem_filter] at hp'
  obtain ⟨hpc, hm⟩ := hp'
  have hcount := counterItems_count hpc
  simp only [decide_eq_true_eq] at hm
  omega

theorem most_common_servers_subset {lst : List String} {n m : Nat} {s : String}
    (hs : s ∈ most_common_servers lst n m) : s ∈ lst := by
  simp only [most_common_servers, List.mem_map] at hs
  obtain ⟨p, hp, rfl⟩ := hs
  have hp' : p ∈ sortedDescByCount ((counterItems lst).filter (fun p => m ≤ p.2)) :=
    List.mem_of_mem_take hp
  rw [mem_sortedDescByCount, List.mem_filter] at hp'
  exact counterItems_fst_mem hp'.1

theorem mapOpt_mem {f : String → Option String} :
    ∀ {xs ys : List String}, mapOpt f xs = some ys →
      ∀ y ∈ ys, ∃ x ∈ xs, f x = some y := by
  intro xs
  induction xs with
  | nil =>
    intro ys h y hy
    simp only [mapOpt, Option.some.injEq] at h
    subst h
    simp at hy
  | cons x xs ih =>
    intro ys h y hy
    simp only [mapOpt] at h
    cases hfx : f x with
    | none => rw [hfx] at h; simp at h
    | some z =>
      cases hrest : mapOpt f xs with
      | none => rw [hfx, hrest] at h; simp at h
      | some zs =>
        rw [hfx, hrest] at h
        simp only [Option.some.injEq] at h
        subst h
        rcases List.mem_cons.mp hy with rfl | hy'
        · exact ⟨x, List.mem_cons_self _ _, hfx⟩
        · obtain ⟨x', hx', hfx'⟩ := ih hrest y hy'
          exact ⟨x', List.mem_cons_of_mem _ hx', hfx'⟩

theorem mapOpt_forall {f : String → Option String} :
    ∀ {xs ys : List String}, mapOpt f xs = some ys →
      ∀ x ∈ xs, ∃ y ∈ ys, f x = some y := by
  intro xs
  induction xs with
  | nil => intro ys _ x hx; simp at hx
  | cons x xs ih =>
    intro ys h x' hx'
    simp only [mapOpt] at h
    cases hfx : f x with
    | none => rw [hfx] at h; simp at h
    | some z =>
      cases hrest : mapOpt f xs with
      | none => rw [hfx, hrest] at h; simp at h
      | some zs =>
        rw [hfx, hrest] at h
        simp only [Option.some.injEq] at h
        subst h
        rcases List.mem_cons.mp hx' with rfl | hx''
        · exact ⟨z, List.mem_cons_self _ _, hfx⟩
        · obtain ⟨y, hy, hfy⟩ := ih hrest x' hx''
          exact ⟨y, List.mem_cons_of_mem _ hy, hfy⟩

theorem foldlMax_init (l : List Int) (a : Int) : a ≤ l.foldl max a := by
  induction l generalizing a with
  | nil => simp
  | cons x xs ih =>
    exact le_trans (le_max_left a x) (ih (max a x))

theorem foldlMax_le_of_mem {l : List Int} {x : Int} (hx : x ∈ l) (a : Int) :
    x ≤ l.foldl max a := by
  induction l generalizing a with
  | nil => simp at hx
  | cons y ys ih =>
    rcases List.mem_cons.mp hx with rfl | h
    · exact le_trans (le_max_right a x) (foldlMax_init _ _)
    · exact ih h _

theorem foldlMax_mem (l : List Int) (a : Int) :
    l.foldl max a = a ∨ l.foldl max a ∈ l := by
  induction l generalizing a with
  | nil => simp
  | cons x xs ih =>
    simp only [List.foldl_cons]
    rcases ih (max a x) with h | h
    · rw [h]
      rcases max_choice a x with h' | h'
      · exact Or.inl h'
      · rw [h']
        exact Or.inr (List.mem_cons_self _ _)
    · exact Or.inr (List.mem_cons_of_mem _ h)

theorem get_highest_level_members_spec (ml : List (String × Int)) (h : ml ≠ []) :
    ∃ M, M ∈ ml.map Prod.snd ∧ (∀ v ∈ ml.map Prod.snd, v ≤ M) ∧
      get_highest_level_members ml =
        some (if M ≤ 50 then []
              else (ml.filter (fun q => q.2 = M)).map Prod.fst) := by
  match ml with
  | [] => exact absurd rfl h
  | p :: rest =>
    refine ⟨(rest.map Prod.snd).foldl max p.2, ?_, ?_, ?_⟩
    · rcases foldlMax_mem (rest.map Prod.snd) p.2 with h' | h'
      · rw [h']; simp
      · simp only [List.map_cons, List.mem_cons]
        exact Or.inr h'
    · intro v hv
      simp only [List.map_cons, List.mem_cons] at hv
      rcases hv with rfl | hv
      · exact foldlMax_init _ _
      · exact foldlMax_le_of_mem hv _
    · simp only [get_highest_level_members]
      rw [apply_ite some]

theorem get_highest_level_members_subset {ml : List (String × Int)}
    {r : List String} (hr : get_highest_level_members ml = some r) :
    ∀ u ∈ r, u ∈ ml.map Prod.fst := by
  match ml with
  | [] => simp [get_highest_level_members] at hr
  | p :: rest =>
    simp only [get_highest_level_members] at hr
    split at hr
    · cases hr
      intro u hu
      simp at hu
    · cases hr
      intro u hu
      simp only [List.mem_map] at hu
      obtain ⟨q, hq, rfl⟩ := hu
      exact List.mem_map_of_mem _ (List.mem_of_mem_filter hq)

theorem memberLevels_keys (members : List String) (pl : PLContent) :
    (memberLevels members pl).map Prod.fst = members := by
  induction members with
  | nil => rfl
  | cons m ms ih =>
    simp only [memberLevels, List.map_cons] at ih ⊢
    rw [ih]

theorem splitColon_ne_nil (l : List Char) : splitColon l ≠ [] := by
  cases l with
  | nil => simp [splitColon]
  | cons c rest =>
    simp only [splitColon]
    split
    · simp
    · split <;> simp

theorem splitColon_append (a r : List Char) (ha : ':' ∉ a) :
    splitColon (a ++ ':' :: r) = a :: splitColon r := by
  induction a with
  | nil => simp [splitColon]
  | cons c cs ih =>
    have hc : ¬ (c = ':') := fun e => ha (e ▸ List.mem_cons_self c cs)
    have hcs : ':' ∉ cs := fun h' => ha (List.mem_cons_of_mem _ h')
    rw [List.cons_append]
    simp only [splitColon, if_neg hc, List.append_eq]
    rw [ih hcs]

theorem splitColon_length (l : List Char) :
    (splitColon l).length = l.count ':' + 1 := by
  induction l with
  | nil => simp [splitColon]
  | cons c rest ih =>
    simp only [splitColon]
    split
    · next hc =>
      subst hc
      simp only [List.length_cons, ih, List.count_cons_self]
    · next hc =>
      match h : splitColon rest with
      | [] => exact absurd h (splitColon_ne_nil rest)
      | s :: ss =>
        rw [h] at ih
        simp only [List.length_cons] at ih ⊢
        rw [List.count_cons]
        simp only [beq_iff_eq, if_neg hc]
        omega

theorem get_user_homeserver_none_iff (s : String) :
    get_user_homeserver s = none ↔ ':' ∉ s.toList := by
  unfold get_user_homeserver
  rw [List.get?_eq_none, List.length_map, splitColon_length]
  constructor
  · intro h
    exact List.count_eq_zero.mp (by omega)
  · intro h
    have := List.count_eq_zero.mpr h
    omega

theorem get_user_homeserver_two_colons (a b c : String)
    (ha : ':' ∉ a.toList) (hb : ':' ∉ b.toList) :
    get_user_homeserver (a ++ ":" ++ b ++ ":" ++ c) = some b := by
  unfold get_user_homeserver
  have hdata : (a ++ ":" ++ b ++ ":" ++ c).toList
      = a.toList ++ ':' :: (b.toList ++ ':' :: c.toList) := by
    have h1 : ∀ s t : String, (s ++ t).toList = s.toList ++ t.toList :=
      fun _ _ => rfl
    rw [h1, h1, h1, h1]
    simp
  rw [hdata, splitColon_append _ _ ha, splitColon_append _ _ hb]
  simp [List.get?]

/-! ### Branch lemmas for the per-room pipeline -/

theorem processRoom_notChild {cfg : Config} {o : Oracles} {e : ChildEntry}
    (ht : e.type_ ≠ "m.space.child") :
    processRoom cfg o e = .ok .notChild := by
  simp [processRoom, ht]

theorem processRoom_keyMissing {cfg : Config} {o : Oracles} {e : ChildEntry}
    (ht : e.type_ = "m.space.child") (hk : e.state_key = none) :
    processRoom cfg o e = .error .stateKeyMissing := by
  simp [processRoom, ht, hk]

theorem processRoom_emptyKey {cfg : Config} {o : Oracles} {e : ChildEntry}
    (ht : e.type_ = "m.space.child") (hk : e.state_key = some "") :
    processRoom cfg o e = .ok .emptyStateKey := by
  simp [processRoom, ht, hk]

theorem processRoom_memberErr {cfg : Config} {o : Oracles} {e : ChildEntry}
    {k m : String} (ht : e.type_ = "m.space.child") (hk : e.state_key = some k)
    (hk' : k ≠ "") (hm : o.members k = .err m) :
    processRoom cfg o e =
      if cfg.ignore_errors then .ok (.memberSkip m)
      else .error (.memberFetch m) := by
  simp [processRoom, ht, hk, hk', hm]

theorem processRoom_memberOk {cfg : Config} {o : Oracles} {e : ChildEntry}
    {k : String} {members : List String} (ht : e.type_ = "m.space.child")
    (hk : e.state_key = some k) (hk' : k ≠ "") (hm : o.members k = .ok members) :
    processRoom cfg o e =
      match roomSelection cfg o.powerLevels k members with
      | .error f => .error f
      | .ok servers => applyPhase cfg o e k servers := by
  simp [processRoom, ht, hk, hk', hm]

theorem applyPhase_matches {cfg : Config} {o : Oracles} {e : ChildEntry}
    {k : String} {servers : List String}
    (h : e.via.toFinset = servers.toFinset) :
    applyPhase cfg o e k servers = .ok .alreadyMatches := by
  simp [applyPhase, h]

theorem applyPhase_differs {cfg : Config} {o : Oracles} {e : ChildEntry}
    {k : String} {servers : List String}
    (h : ¬ e.via.toFinset = servers.toFinset) :
    applyPhase cfg o e k servers =
      (if cfg.dry_run then
        .ok (.dryRun (if cfg.shuffle_order then o.shuffle servers else servers))
      else
        match o.put k with
        | .ok => .ok (.updated (if cfg.shuffle_order then o.shuffle servers else servers))
        | .err m =>
          if cfg.ignore_errors then
            .ok (.updateSkip (if cfg.shuffle_order then o.shuffle servers else servers) m)
          else .error (.update m)) := by
  simp [applyPhase, h]

theorem mem_pySet {x : String} {l : List String} : x ∈ pySet l ↔ x ∈ l :=
  List.mem_dedup

theorem authorityServers_mem {members all : List String} {pl : PLContent}
    {hl : List String}
    (hall : mapOpt get_user_homeserver members = some all)
    (hauth : authorityServers (memberLevels members pl) = .ok hl) :
    ∀ y ∈ hl, y ∈ all := by
  intro y hy
  unfold authorityServers at hauth
  cases hglm : get_highest_level_members (memberLevels members pl) with
  | none => simp only [hglm] at hauth; cases hauth
  | some hl_members =>
    simp only [hglm] at hauth
    cases hmo : mapOpt get_user_homeserver hl_members with
    | none => simp only [hmo] at hauth; cases hauth
    | some hs =>
      simp only [hmo, Except.ok.injEq] at hauth
      subst hauth
      obtain ⟨u, hu, hfu⟩ := mapOpt_mem hmo y hy
      have hu' : u ∈ members := by
        have := get_highest_level_members_subset hglm u hu
        rwa [memberLevels_keys] at this
      obtain ⟨y', hy', hfy'⟩ := mapOpt_forall hall u hu'
      rw [hfu] at hfy'
      injection hfy' with h'
      exact h' ▸ hy'

theorem finishServers_mem {cfg : Config} {members all common : List String}
    {pl : PLContent} {S : List String}
    (hall : mapOpt get_user_homeserver members = some all)
    (hS : finishServers cfg members all common pl = .ok S) :
    ∀ x ∈ S, x ∈ all ∨ x ∈ common := by
  unfold finishServers at hS
  cases hauth : authorityServers (memberLevels members pl) with
  | error f => simp only [hauth] at hS; cases hS
  | ok hl =>
    simp only [hauth] at hS
    have hhl := authorityServers_mem hall hauth
    have hbase : ∀ x,
        x ∈ pySet (cfg.additional_servers.filter
            (fun server => all.contains server) ++ common ++ hl) →
        x ∈ all ∨ x ∈ common := by
      intro x hx
      rw [mem_pySet] at hx
      rcases List.mem_append.mp hx with hx' | hx'
      · rcases List.mem_append.mp hx' with hx'' | hx''
        · exact Or.inl (List.mem_of_elem_eq_true (List.mem_filter.mp hx'').2)
        · exact Or.inr hx''
      · exact Or.inl (hhl x hx')
    intro x hx
    split at hS
    · simp only [Except.ok.injEq] at hS
      subst hS
      rw [mem_pySet] at hx
      rcases List.mem_append.mp hx with hx' | hx'
      · exact Or.inl (most_common_servers_subset hx')
      · exact hbase x hx'
    · simp only [Except.ok.injEq] at hS
      subst hS
      exact hbase x hx

theorem roomSelection_mem {cfg : Config} {pls : String → PLResp} {k : String}
    {members all S : List String}
    (hall : mapOpt get_user_homeserver members = some all)
    (hS : roomSelection cfg pls k members = .ok S) :
    ∀ x ∈ S, x ∈ all := by
  unfold roomSelection at hS
  simp only [hall] at hS
  cases hpl : pls k with
  | err m => simp only [hpl] at hS; cases hS
  | ok pl =>
    simp only [hpl] at hS
    intro x hx
    rcases finishServers_mem hall hS x hx with h | h
    · exact h
    · exact most_common_servers_subset h

/-! ### Claims -/

/-- C5: for every input list of server names, every maximum count `n`
and every minimum-occurrence threshold `m`, `most_common_servers`
returns at most `n` servers, and every returned server occurs at least
`m` times in the input list. -/
theorem C5_frequency_selector_bounds (lst : List String) (n m : Nat) :
    (most_common_servers lst n m).length ≤ n ∧
      ∀ s ∈ most_common_servers lst n m, m ≤ lst.count s :=
  ⟨most_common_servers_length lst n m, fun _ hs => most_common_servers_count hs⟩

/-- Witness for C5 at the spec's scenario: members on `[X, X, Y]` with
`n = 5`, `m = 2`. -/
theorem C5_frequency_selector_bounds_witness :
    (most_common_servers ["X", "X", "Y"] 5 2).length ≤ 5 ∧
      ∀ s ∈ most_common_servers ["X", "X", "Y"] 5 2,
        2 ≤ (["X", "X", "Y"] : List String).count s :=
  C5_frequency_selector_bounds ["X", "X", "Y"] 5 2

/-- C6: for every non-empty mapping from member to effective power
level there is a maximum level `M` present; if `M ≤ 50` the selector
returns the empty list, otherwise exactly the members whose level
equals `M` (ties all included), and the authority server set is those
members mapped through `get_user_homeserver`. -/
theorem C6_authority_selector (ml : List (String × Int)) (h : ml ≠ []) :
    ∃ M, M ∈ ml.map Prod.snd ∧ (∀ v ∈ ml.map Prod.snd, v ≤ M) ∧
      (M ≤ 50 →
        get_highest_level_members ml = some [] ∧ authorityServers ml = .ok []) ∧
      (50 < M →
        get_highest_level_members ml
            = some ((ml.filter (fun q => q.2 = M)).map Prod.fst) ∧
          ∀ hs, mapOpt get_user_homeserver
              ((ml.filter (fun q => q.2 = M)).map Prod.fst) = some hs →
            authorityServers ml = .ok hs) := by
  obtain ⟨M, hM_mem, hM_ub, hM_eq⟩ := get_highest_level_members_spec ml h
  refine ⟨M, hM_mem, hM_ub, ?_, ?_⟩
  · intro hle
    rw [if_pos hle] at hM_eq
    refine ⟨hM_eq, ?_⟩
    unfold authorityServers
    simp [hM_eq, mapOpt]
  · intro hgt
    rw [if_neg (by omega : ¬ M ≤ 50)] at hM_eq
    refine ⟨hM_eq, ?_⟩
    intro hs hmo
    unfold authorityServers
    simp [hM_eq, hmo]

/-- Witness for C6 at the spec's scenario: levels
`{a:100, b:100, c:0}`, threshold 50, both tied members returned and
mapped to their homeservers. -/
theorem C6_authority_selector_witness :
    ∃ M, M ∈ ([("@a:X", 100), ("@b:X", 100), ("@c:Y", 0)] :
        List (String × Int)).map Prod.snd ∧
      (∀ v ∈ ([("@a:X", 100), ("@b:X", 100), ("@c:Y", 0)] :
          List (String × Int)).map Prod.snd, v ≤ M) ∧
      (M ≤ 50 →
        get_highest_level_members [("@a:X", 100), ("@b:X", 100), ("@c:Y", 0)]
            = some [] ∧
          authorityServers [("@a:X", 100), ("@b:X", 100), ("@c:Y", 0)] = .ok []) ∧
      (50 < M →
        get_highest_level_members [("@a:X", 100), ("@b:X", 100), ("@c:Y", 0)]
            = some ((([("@a:X", 100), ("@b:X", 100), ("@c:Y", 0)] :
                List (String × Int)).filter (fun q => q.2 = M)).map Prod.fst) ∧
          ∀ hs, mapOpt get_user_homeserver
              ((([("@a:X", 100), ("@b:X", 100), ("@c:Y", 0)] :
                List (String × Int)).filter (fun q => q.2 = M)).map Prod.fst)
              = some hs →
            authorityServers [("@a:X", 100), ("@b:X", 100), ("@c:Y", 0)] = .ok hs) :=
  C6_authority_selector [("@a:X", 100), ("@b:X", 100), ("@c:Y", 0)] (by decide)

/-- C10: on an identifier with two or more colons the extractor returns
only the segment between the first and second colon (the port of a
server name with port is silently dropped), and it fails — the modelled
`IndexError` — exactly on identifiers containing no colon at all. -/
theorem C10_homeserver_extractor (a b c : String)
    (ha : ':' ∉ a.toList) (hb : ':' ∉ b.toList) :
    get_user_homeserver (a ++ ":" ++ b ++ ":" ++ c) = some b ∧
      ∀ s : String, get_user_homeserver s = none ↔ ':' ∉ s.toList :=
  ⟨get_user_homeserver_two_colons a b c ha hb, get_user_homeserver_none_iff⟩

/-- Witness for C10 at `@user:example.org:8448`: the port is dropped. -/
theorem C10_homeserver_extractor_witness :
    get_user_homeserver "@user:example.org:8448" = some "example.org" :=
  (C10_homeserver_extractor "@user" "example.org" "8448"
    (by decide) (by decide)).1

/-- C7: a configured allow-list (`additional_servers`) entry that hosts
no current member of the room never appears in the room's final
computed via list, including when the relaxed frequency re-run is
triggered. -/
theorem C7_allowlist_requires_membership (cfg : Config)
    (pls : String → PLResp) (k s : String) (members all S : List String)
    (hall : mapOpt get_user_homeserver members = some all)
    (hadd : s ∈ cfg.additional_servers) (hs : s ∉ all)
    (hS : roomSelection cfg pls k members = .ok S) :
    s ∉ S :=
  fun hmem => hs (roomSelection_mem hall hS s hmem)

/-- Witness for C7: allow-list server `Z` hosts no member of a room on
servers `X`/`Y`; the relaxed re-run fires (candidate set of size 2 is
below the optimum of 3) and `Z` still does not appear. -/
theorem C7_allowlist_requires_membership_witness :
    roomSelection wCfg wOracles.powerLevels "!r1:X" ["@a:X", "@b:X", "@c:Y"]
        = .ok ["Y", "X"] ∧
      ("Z" : String) ∉ (["Y", "X"] : List String) :=
  ⟨by decide,
   C7_allowlist_requires_membership wCfg wOracles.powerLevels "!r1:X" "Z"
     ["@a:X", "@b:X", "@c:Y"] ["X", "X", "Y"] ["Y", "X"] (by decide) (by decide)
     (by decide) (by decide)⟩

/-- C3 counterexample: a child entry of type "m.space.child" whose
state key is absent is not skipped — the run aborts with the modelled
`KeyError` (and the following entry is never processed), even though
ignore-errors is configured. -/
theorem C3_absent_state_key_counterexample :
    update_via wCfg wOracles
        (.ok [⟨[{ type_ := "m.space.child", state_key := none,
                  suggested := false, via := [] }, wEntry]⟩]) =
      .error (.fatal .stateKeyMissing) := by
  decide

/-- C3 (amended): an entry whose type is not "m.space.child", or whose
state key is present but empty, is skipped before any fetch or
selection work (the outcome holds for every oracle); an entry whose
state key is absent instead raises the modelled `KeyError` and aborts
the run. -/
theorem C3_room_skip_conditions (cfg : Config) (o : Oracles) (e : ChildEntry) :
    (e.type_ ≠ "m.space.child" → processRoom cfg o e = .ok .notChild) ∧
    (e.type_ = "m.space.child" → e.state_key = some "" →
      processRoom cfg o e = .ok .emptyStateKey) ∧
    (e.type_ = "m.space.child" → e.state_key = none →
      processRoom cfg o e = .error .stateKeyMissing) :=
  ⟨fun ht => processRoom_notChild ht,
   fun ht hk => processRoom_emptyKey ht hk,
   fun ht hk => processRoom_keyMissing ht hk⟩

/-- Witness for C3 at a non-child entry and an empty-state-key entry. -/
theorem C3_room_skip_conditions_witness :
    processRoom wCfg wOracles
        { type_ := "m.room.message", state_key := some "!r1:X",
          suggested := false, via := [] } = .ok .notChild ∧
      processRoom wCfg wOracles
        { type_ := "m.space.child", state_key := some "",
          suggested := false, via := [] } = .ok .emptyStateKey :=
  ⟨(C3_room_skip_conditions wCfg wOracles _).1 (by decide),
   (C3_room_skip_conditions wCfg wOracles _).2.1 rfl rfl⟩

/-- C2 counterexample: with ignore-errors configured, a failed
power-level fetch does not skip the room and continue — the run aborts
(the error response has no `content` attribute), and the second entry
is never processed. -/
theorem C2_power_level_fetch_counterexample :
    update_via wCfg { wOracles with powerLevels := fun _ => .err "boom" }
        (.ok [⟨[wEntry, wEntryDiff]⟩]) =
      .error (.fatal (.plContentAttr "boom")) := by
  decide

/-- C2 (amended): a failed power-level fetch is not routed through the
ignore-errors branching at all: `update_via` reads the response's
content unconditionally, so the failure aborts the room's iteration —
and with it the run — regardless of the ignore-errors setting. -/
theorem C2_power_level_fetch_unguarded (cfg : Config) (o : Oracles)
    (e : ChildEntry) (k m : String) (members all : List String)
    (ht : e.type_ = "m.space.child") (hk : e.state_key = some k) (hk' : k ≠ "")
    (hm : o.members k = .ok members)
    (hall : mapOpt get_user_homeserver members = some all)
    (hpl : o.powerLevels k = .err m) :
    processRoom cfg o e = .error (.plContentAttr m) := by
  rw [processRoom_memberOk ht hk hk' hm]
  unfold roomSelection
  simp [hall, hpl]

/-- Witness for C2 (amended), with ignore-errors enabled. -/
theorem C2_power_level_fetch_unguarded_witness :
    processRoom wCfg { wOracles with powerLevels := fun _ => .err "boom" }
        wEntry = .error (.plContentAttr "boom") :=
  C2_power_level_fetch_unguarded wCfg
    { wOracles with powerLevels := fun _ => .err "boom" } wEntry "!r1:X" "boom"
    ["@a:X", "@b:X"] ["X", "X"] rfl rfl (by decide) rfl (by decide) rfl

/-- C4: when the computed server set equals the room's published via
list as sets, the room is reported as already matching and no state
update is issued — the outcome is the same for every put and shuffle
oracle; conversely a write happens only when the sets differ. -/
theorem C4_change_detector (cfg : Config) (o : Oracles) (e : ChildEntry)
    (k : String) (members S : List String)
    (ht : e.type_ = "m.space.child") (hk : e.state_key = some k) (hk' : k ≠ "")
    (hm : o.members k = .ok members)
    (hS : roomSelection cfg o.powerLevels k members = .ok S) :
    (e.via.toFinset = S.toFinset →
      ∀ p σ, processRoom cfg { o with put := p, shuffle := σ } e
          = .ok .alreadyMatches) ∧
    ∀ s, processRoom cfg o e = .ok (.updated s) →
      e.via.toFinset ≠ S.toFinset := by
  constructor
  · intro heq p σ
    have hm' : ({ o with put := p, shuffle := σ } : Oracles).members k
        = .ok members := hm
    have hS' : roomSelection cfg
        ({ o with put := p, shuffle := σ } : Oracles).powerLevels k members
        = .ok S := hS
    rw [processRoom_memberOk ht hk hk' hm']
    simp only [hS']
    exact applyPhase_matches heq
  · intro s hupd heq
    rw [processRoom_memberOk ht hk hk' hm] at hupd
    simp only [hS] at hupd
    rw [applyPhase_matches heq] at hupd
    simp at hupd

/-- Witness for C4 at the spec's scenario (current `[X]`, computed
`{X}`): the room is skipped for an oracle whose put always fails,
showing no write is attempted. -/
theorem C4_change_detector_witness :
    processRoom wCfg
        { wOracles with put := fun _ => .err "never", shuffle := fun l => l }
        wEntry = .ok .alreadyMatches :=
  (C4_change_detector wCfg wOracles wEntry "!r1:X" ["@a:X", "@b:X"] ["X"]
      rfl rfl (by decide) rfl (by decide)).1 (by decide) _ _

/-- C8: when the merged candidate set falls short of the configured
optimum and the relaxation flag is set, the frequency selector is
re-run with `n = max(most-common-count, optimal via-count)` and
minimum-occurrence threshold 1, the final list is the deduplicated
union of the re-run's result with the prior candidate set, and the
prior candidate set is contained in the final list. -/
theorem C8_relaxed_rerun (cfg : Config) (members all common : List String)
    (pl : PLContent) (hl : List String)
    (hauth : authorityServers (memberLevels members pl) = .ok hl)
    (hlen : (pySet (cfg.additional_servers.filter
        (fun server => all.contains server) ++ common ++ hl)).length
        < cfg.optimal_via_servers)
    (hrelax : cfg.ignore_requirementrs_to_reach_optimum = true) :
    finishServers cfg members all common pl =
        .ok (pySet (most_common_servers all
            (max cfg.most_common_servers cfg.optimal_via_servers) 1 ++
          pySet (cfg.additional_servers.filter
            (fun server => all.contains server) ++ common ++ hl))) ∧
      ∀ x ∈ pySet (cfg.additional_servers.filter
          (fun server => all.contains server) ++ common ++ hl),
        x ∈ pySet (most_common_servers all
            (max cfg.most_common_servers cfg.optimal_via_servers) 1 ++
          pySet (cfg.additional_servers.filter
            (fun server => all.contains server) ++ common ++ hl)) := by
  constructor
  · unfold finishServers
    simp only [hauth]
    rw [if_pos ⟨hlen, hrelax⟩]
  · intro x hx
    rw [mem_pySet]
    exact List.mem_append.mpr (Or.inr hx)

/-- Witness for C8 at the spec's scenario: candidate set `[X]` of size
1, optimum 3, relaxation enabled, members spanning servers `X` and `Y`;
the final set grows to two servers but still falls short of 3. -/
theorem C8_relaxed_rerun_witness :
    finishServers wCfg ["@a:X", "@b:X", "@c:Y"] ["X", "X", "Y"] ["X"]
        ⟨none, none⟩ = .ok ["Y", "X"] ∧
      (["Y", "X"] : List String).length < wCfg.optimal_via_servers := by
  constructor
  · rw [(C8_relaxed_rerun wCfg ["@a:X", "@b:X", "@c:Y"] ["X", "X", "Y"] ["X"]
        ⟨none, none⟩ [] (by decide) (by decide) rfl).1]
    decide
  · decide

/-- C9: a failed hierarchy fetch always aborts, regardless of
configuration; a failed membership fetch or state update aborts unless
ignore-errors is configured, in which case the room gets a reported
skip outcome; and a room that yields an outcome (rather than an
exception) lets processing continue with the remaining rooms. -/
theorem C9_error_branching :
    (∀ (cfg : Config) (o : Oracles) (m : String),
        update_via cfg o (.err m) = .error (.hierarchy m)) ∧
    (∀ (cfg : Config) (o : Oracles) (e : ChildEntry) (k m : String),
        e.type_ = "m.space.child" → e.state_key = some k → k ≠ "" →
        o.members k = .err m →
        processRoom cfg o e =
          if cfg.ignore_errors then .ok (.memberSkip m)
          else .error (.memberFetch m)) ∧
    (∀ (cfg : Config) (o : Oracles) (e : ChildEntry) (k m : String)
        (members S : List String),
        e.type_ = "m.space.child" → e.state_key = some k → k ≠ "" →
        o.members k = .ok members →
        roomSelection cfg o.powerLevels k members = .ok S →
        ¬ e.via.toFinset = S.toFinset → cfg.dry_run = false →
        o.put k = .err m →
        processRoom cfg o e =
          if cfg.ignore_errors then
            .ok (.updateSkip (if cfg.shuffle_order then o.shuffle S else S) m)
          else .error (.update m)) ∧
    (∀ (cfg : Config) (o : Oracles) (e : ChildEntry) (rest : List ChildEntry)
        (out : RoomOutcome), processRoom cfg o e = .ok out →
        processRooms cfg o (e :: rest)
          = Except.map (fun outs => out :: outs) (processRooms cfg o rest)) := by
  refine ⟨fun cfg o m => rfl, ?_, ?_, ?_⟩
  · intro cfg o e k m ht hk hk' hm
    exact processRoom_memberErr ht hk hk' hm
  · intro cfg o e k m members S ht hk hk' hm hS hne hdry hput
    rw [processRoom_memberOk ht hk hk' hm]
    simp only [hS]
    rw [applyPhase_differs hne]
    simp [hdry, hput]
  · intro cfg o e rest out hout
    simp only [processRooms, hout]
    cases h : processRooms cfg o rest <;> simp [Except.map]

/-- Witness for C9: a failed hierarchy fetch aborts under `wCfg`, and
with ignore-errors enabled a failed membership fetch yields a reported
skip outcome. -/
theorem C9_error_branching_witness :
    update_via wCfg wOracles (.err "gone") = .error (.hierarchy "gone") ∧
      processRoom wCfg { wOracles with members := fun _ => .err "m" } wEntry
        = .ok (.memberSkip "m") := by
  constructor
  · exact C9_error_branching.1 wCfg wOracles "gone"
  · rw [C9_error_branching.2.1 wCfg
      { wOracles with members := fun _ => .err "m" } wEntry "!r1:X" "m"
      rfl rfl (by decide) rfl]
    rfl

/-- A room whose first, live iteration produced a clean outcome is
reported as already matching (or skipped for the same structural
reason) by a second iteration that sees the written via list and the
same membership and power-level responses — for any put and shuffle
behaviour in the second run. -/
theorem processRoom_second_run (cfg : Config) (o o₂ : Oracles) (e : ChildEntry)
    (out : RoomOutcome)
    (hdry : cfg.dry_run = false)
    (hshuf : ∀ l, List.Perm (o.shuffle l) l)
    (hmem : o₂.members = o.members) (hpl : o₂.powerLevels = o.powerLevels)
    (hout : processRoom cfg o e = .ok out) (hfree : cleanOutcome out) :
    processRoom cfg o₂ (applyOutcome e out) = .ok (secondRunOutcome out) := by
  by_cases ht : e.type_ = "m.space.child"
  case neg =>
    rw [processRoom_notChild ht] at hout
    injection hout with h
    subst h
    simp only [applyOutcome, secondRunOutcome]
    exact processRoom_notChild ht
  case pos =>
    cases hk : e.state_key with
    | none =>
      rw [processRoom_keyMissing ht hk] at hout
      cases hout
    | some k =>
      by_cases hke : k = ""
      · subst hke
        rw [processRoom_emptyKey ht hk] at hout
        injection hout with h
        subst h
        simp only [applyOutcome, secondRunOutcome]
        exact processRoom_emptyKey ht hk
      · cases hm : o.members k with
        | err m =>
          rw [processRoom_memberErr ht hk hke hm] at hout
          split at hout
          · injection hout with h
            subst h
            simp [cleanOutcome] at hfree
          · cases hout
        | ok members =>
          rw [processRoom_memberOk ht hk hke hm] at hout
          cases hsel : roomSelection cfg o.powerLevels k members with
          | error f =>
            simp only [hsel] at hout
            cases hout
          | ok S =>
            simp only [hsel] at hout
            have hm₂ : o₂.members k = .ok members := by rw [hmem]; exact hm
            have hsel₂ : roomSelection cfg o₂.powerLevels k members = .ok S := by
              rw [hpl]; exact hsel
            by_cases heq : e.via.toFinset = S.toFinset
            · rw [applyPhase_matches heq] at hout
              injection hout with h
              subst h
              simp only [applyOutcome, secondRunOutcome]
              rw [processRoom_memberOk ht hk hke hm₂]
              simp only [hsel₂]
              exact applyPhase_matches heq
            · rw [applyPhase_differs heq] at hout
              rw [if_neg (by simp [hdry])] at hout
              cases hput : o.put k with
              | ok =>
                simp only [hput] at hout
                injection hout with h
                subst h
                have hs₀ : (if cfg.shuffle_order then o.shuffle S else S).toFinset
                    = S.toFinset := by
                  by_cases hso : cfg.shuffle_order
                  · rw [if_pos hso]
                    exact List.toFinset_eq_of_perm _ _ (hshuf S)
                  · rw [if_neg hso]
                simp only [applyOutcome, secondRunOutcome]
                have ht' : ({ e with
                    via := if cfg.shuffle_order then o.shuffle S else S } :
                    ChildEntry).type_ = "m.space.child" := ht
                have hk₂ : ({ e with
                    via := if cfg.shuffle_order then o.shuffle S else S } :
                    ChildEntry).state_key = some k := hk
                rw [processRoom_memberOk ht' hk₂ hke hm₂]
                simp only [hsel₂]
                exact applyPhase_matches hs₀
              | err m =>
                simp only [hput] at hout
                split at hout
                · injection hout with h
                  subst h
                  simp [cleanOutcome] at hfree
                · cases hout

/-- Second-run behaviour lifted over the whole children list. -/
theorem processRooms_second_run (cfg : Config) (o o₂ : Oracles)
    (hdry : cfg.dry_run = false)
    (hshuf : ∀ l, List.Perm (o.shuffle l) l)
    (hmem : o₂.members = o.members) (hpl : o₂.powerLevels = o.powerLevels) :
    ∀ (es : List ChildEntry) (outs : List RoomOutcome),
      processRooms cfg o es = .ok outs →
      (∀ out ∈ outs, cleanOutcome out) →
      processRooms cfg o₂ (applyRun es outs)
        = .ok (outs.map secondRunOutcome) := by
  intro es
  induction es with
  | nil =>
    intro outs h hfree
    simp only [processRooms, Except.ok.injEq] at h
    subst h
    simp [applyRun, processRooms]
  | cons e rest ih =>
    intro outs h hfree
    cases hpr : processRoom cfg o e with
    | error f =>
      simp only [processRooms, hpr] at h
      cases h
    | ok out =>
      simp only [processRooms, hpr] at h
      cases hrest : processRooms cfg o rest with
      | error er =>
        simp only [hrest] at h
        cases h
      | ok outs' =>
        simp only [hrest, Except.ok.injEq] at h
        subst h
        have hfree_head := hfree out (List.mem_cons_self _ _)
        have h2 := processRoom_second_run cfg o o₂ e out hdry hshuf hmem hpl
          hpr hfree_head
        have h3 := ih outs' hrest (fun x hx => hfree x (List.mem_cons_of_mem _ hx))
        simp only [applyRun, List.zipWith_cons_cons] at h3 ⊢
        simp only [processRooms, h2, h3, List.map_cons]

/-- C1: for a live (non-dry-run), error-free run whose outcomes are
written back into the space's children, a second run with the same
membership and power-level responses — and arbitrary put and shuffle
behaviour, so no write can influence it — reports every qualifying room
as already matching (previously skipped entries are skipped for the
same structural reason) and issues no state update. -/
theorem C1_pipeline_idempotent (cfg : Config) (o o₂ : Oracles)
    (space : SpaceRoom) (rest : List SpaceRoom) (outs : List RoomOutcome)
    (hdry : cfg.dry_run = false)
    (hshuf : ∀ l, List.Perm (o.shuffle l) l)
    (hmem : o₂.members = o.members) (hpl : o₂.powerLevels = o.powerLevels)
    (hrun : update_via cfg o (.ok (space :: rest)) = .ok outs)
    (hfree : ∀ out ∈ outs, cleanOutcome out) :
    update_via cfg o₂
        (.ok (⟨applyRun space.children_state outs⟩ :: rest)) =
      .ok (outs.map secondRunOutcome) ∧
    ∀ s, RoomOutcome.updated s ∉ outs.map secondRunOutcome := by
  constructor
  · exact processRooms_second_run cfg o o₂ hdry hshuf hmem hpl
      space.children_state outs hrun hfree
  · intro s hs
    obtain ⟨x, hx, hxeq⟩ := List.mem_map.mp hs
    rcases hfree x hx with h | h | h | ⟨t, h⟩ <;> subst h <;>
      simp [secondRunOutcome] at hxeq

/-- Witness for C1: a space with a matching room, a differing room (its
via list gets rewritten, shuffled, to `[X]`), a non-child entry and an
empty-key entry; the second run — whose put oracle always fails and
whose shuffle is not even a permutation — reports the rewritten room as
already matching. -/
theorem C1_pipeline_idempotent_witness :
    update_via { wCfg with shuffle_order := true }
        { wOracles with put := fun _ => .err "blocked", shuffle := fun _ => [] }
        (.ok [⟨applyRun [wEntry, wEntryDiff, wEntryOther, wEntryEmpty]
            [.alreadyMatches, .updated ["X"], .notChild, .emptyStateKey]⟩]) =
      .ok ([RoomOutcome.alreadyMatches, .updated ["X"], .notChild,
        .emptyStateKey].map secondRunOutcome) :=
  (C1_pipeline_idempotent { wCfg with shuffle_order := true } wOracles
    { wOracles with put := fun _ => .err "blocked", shuffle := fun _ => [] }
    ⟨[wEntry, wEntryDiff, wEntryOther, wEntryEmpty]⟩ [] _
    rfl (fun l => List.reverse_perm l) rfl rfl (by decide)
    (by intro out hout; fin_cases hout <;> simp [cleanOutcome])).1
